import Mathlib

/-!
# Verification of the `bintree` crate (`src/lib.rs`)

Shallow embedding of the unbalanced binary search tree exposed through the
`Tree` mapping interface (`get` / `put` / `remove` / `is_empty` / `clear`).

Encoding of the Rust data model: `Option<Box<BinaryTreeNode<K,V>>>` (a child
slot or a detached subtree) and the wrapper struct
`BinaryTree { root: Option<BinaryTreeNode<K,V>> }` carry the same information,
so a single inductive type models both: `nil` stands for `None` / an empty
root, and `node key value left right` stands for a present
`BinaryTreeNode { key, value, left, right }`.

Rust methods that mutate `&mut self` become functions returning the updated
tree (paired with the returned `Option<V>` where the source returns one).
Methods of `BinaryTreeNode` are only ever invoked on a present node; the
corresponding `nil` cases below are unreachable in the source (guarded there
by `is_some` checks and `unwrap`) and return an inert value, as noted at each
definition.
-/

universe u v

/-- A binary tree slot: `nil` models `None`, `node k v l r` models
`Some(Box(BinaryTreeNode { key := k, value := v, left := l, right := r }))`;
the wrapper `BinaryTree { root }` is identified with its root slot. -/
inductive BinaryTree (K : Type u) (V : Type v) where
  | nil : BinaryTree K V
  | node (key : K) (value : V) (left right : BinaryTree K V) : BinaryTree K V
  deriving DecidableEq

namespace BinaryTree

variable {K : Type u} {V : Type v} [LinearOrder K]

/-- Number of nodes; used only as a termination measure for the mutually
recursive removal helpers (the source recursion is along `Box` ownership). -/
def size : BinaryTree K V → Nat
  | .nil => 0
  | .node _ _ l r => size l + size r + 1

/-- Models `Option::is_some` on a child slot. -/
def isSome : BinaryTree K V → Bool
  | .nil => false
  | .node _ _ _ _ => true

/-- Models `self.left.as_ref().unwrap().key`-style access guarded by
`is_some`: the key of the node in the slot, if any. -/
def keyOf : BinaryTree K V → Option K
  | .nil => none
  | .node k _ _ _ => some k

/-- `BinaryTreeNode::find`: recursive binary search.  The `nil` case folds in
the source's `match self.left/right { None => None, .. }` early returns. -/
def find : BinaryTree K V → K → Option V
  | .nil, _ => none
  | .node k v l r, key =>
    if key = k then some v
    else if key < k then find l key
    else find r key

/-- `BinaryTreeNode::append` with the non-recursive helpers `insert_left` and
`insert_right` inlined (each is a `match` on the child slot: attach the node
if the slot is empty, otherwise `append` into the existing child).  The two
inert cases (`self` absent, appended node absent) are unreachable in the
source: `append` is a method on a present node and `put` always passes a
freshly built node. -/
def append : BinaryTree K V → BinaryTree K V → BinaryTree K V
  | .nil, _ => .nil
  | .node k v l r, .nil => .node k v l r
  | .node k v l r, .node nk nv nl nr =>
    if nk < k then
      match l with
      | .nil => .node k v (.node nk nv nl nr) r
      | .node lk lv ll lr => .node k v (append (.node lk lv ll lr) (.node nk nv nl nr)) r
    else if nk = k then
      .node k nv l r
    else
      match r with
      | .nil => .node k v l (.node nk nv nl nr)
      | .node rk rv rl rr => .node k v l (append (.node rk rv rl rr) (.node nk nv nl nr))

/-- `BinaryTreeNode::min_key_value` of the node `node k v l _`: walk the left
spine; `min_key_value k v l` is the key/value pair at the leftmost node.  The
right child never matters, so it is not an argument. -/
def min_key_value (k : K) (v : V) : BinaryTree K V → K × V
  | .nil => (k, v)
  | .node lk lv ll _ => min_key_value lk lv ll

mutual

/-- `BinaryTreeNode::remove_descendent`: four guarded early returns and a
`None` fallthrough, mirrored as a nested `if` chain.  Steps 2 and 4 both test
`key < self.key`, exactly as in the source.  The `nil` case is unreachable in
the source (the method is only invoked on present nodes). -/
def remove_descendent : BinaryTree K V → K → BinaryTree K V × Option V
  | .nil, _ => (.nil, none)
  | .node k v l r, key =>
    if keyOf l = some key then
      remove_left (.node k v l r)
    else if l.isSome = true ∧ key < k then
      let p := remove_descendent l key
      (.node k v p.1 r, p.2)
    else if keyOf r = some key then
      remove_right (.node k v l r)
    else if r.isSome = true ∧ key < k then
      let p := remove_descendent r key
      (.node k v l p.1, p.2)
    else
      (.node k v l r, none)
termination_by t _ => size t * 8 + 2
decreasing_by
  all_goals simp [size]
  all_goals omega

/-- `BinaryTreeNode::remove_left`: detach the left child, replace the slot by
`take_subtree` of the detached node, return the detached node's value.  The
catch-all case (no left child) is unreachable in the source (guarded by the
caller; the source `unwrap`s). -/
def remove_left : BinaryTree K V → BinaryTree K V × Option V
  | .node k v (.node lk lv ll lr) r =>
    (.node k v (take_subtree (.node lk lv ll lr)) r, some lv)
  | t => (t, none)
termination_by t => size t * 8 + 1
decreasing_by
  all_goals simp [size]
  all_goals omega

/-- `BinaryTreeNode::remove_right`, symmetric to `remove_left`. -/
def remove_right : BinaryTree K V → BinaryTree K V × Option V
  | .node k v l (.node rk rv rl rr) =>
    (.node k v l (take_subtree (.node rk rv rl rr)), some rv)
  | t => (t, none)
termination_by t => size t * 8 + 1
decreasing_by
  all_goals simp [size]
  all_goals omega

/-- `BinaryTreeNode::take_subtree`: the replacement for a node being deleted,
by the four-way match on `(self.left, self.right)`.  In the source the method
also empties the detached node's child slots, but the detached node itself is
discarded by every caller, so only the returned replacement is modelled.  The
`nil` case is unreachable in the source (always called on a detached node). -/
def take_subtree : BinaryTree K V → BinaryTree K V
  | .nil => .nil
  | .node _ _ .nil .nil => .nil
  | .node _ _ (.node lk lv ll lr) .nil => .node lk lv ll lr
  | .node _ _ .nil (.node rk rv rl rr) => .node rk rv rl rr
  | .node k v (.node lk lv ll lr) (.node rk rv rl rr) =>
    take_right_min_subtree (.node k v (.node lk lv ll lr) (.node rk rv rl rr))
termination_by t => size t * 8 + 4
decreasing_by
  all_goals simp [size]

/-- `BinaryTreeNode::take_right_min_subtree`: copy the minimum key/value pair
out of the right subtree, build a new node carrying that pair with the old
left and right subtrees attached, then call `remove_descendent` on the new
node with the copied key (the source discards that call's returned value).
The catch-all case (no right child) is unreachable in the source (the source
`unwrap`s `self.right`). -/
def take_right_min_subtree : BinaryTree K V → BinaryTree K V
  | .node _ _ l (.node rk rv rl rr) =>
    let m := min_key_value rk rv rl
    (remove_descendent (.node m.1 m.2 l (.node rk rv rl rr)) m.1).1
  | t => t
termination_by t => size t * 8 + 3
decreasing_by
  all_goals simp [size]

end

/-- `<BinaryTree as Tree>::get`: `None` on an empty root, else `root.find`. -/
def get : BinaryTree K V → K → Option V
  | .nil, _ => none
  | .node k v l r, key => find (.node k v l r) key

/-- `<BinaryTree as Tree>::put`: a fresh root on an empty tree, else `append`
a freshly built node (`BinaryTreeNode::new(key, value)`) into the root. -/
def put : BinaryTree K V → K → V → BinaryTree K V
  | .nil, key, value => .node key value .nil .nil
  | .node k v l r, key, value => append (.node k v l r) (.node key value .nil .nil)

/-- `<BinaryTree as Tree>::remove`: `None` on an empty root; delegate to
`remove_descendent` when the root key differs; otherwise return a copy of the
root's value and replace the root by `take_subtree` of the root. -/
def remove : BinaryTree K V → K → BinaryTree K V × Option V
  | .nil, _ => (.nil, none)
  | .node k v l r, key =>
    if k ≠ key then remove_descendent (.node k v l r) key
    else (take_subtree (.node k v l r), some v)

/-- `<BinaryTree as Tree>::is_empty`: true iff the root is absent. -/
def is_empty : BinaryTree K V → Bool
  | .nil => true
  | .node _ _ _ _ => false

/-- `<BinaryTree as Tree>::clear`: discard the root. -/
def clear : BinaryTree K V → BinaryTree K V := fun _ => .nil

/-- In-order list of the keys carried by the nodes of the tree. -/
def keys : BinaryTree K V → List K
  | .nil => []
  | .node k _ l r => keys l ++ k :: keys r

/-- The spec's node invariant: every key in the left subtree is strictly less
than the node's key and every key in the right subtree is strictly greater
(equal keys are updated in place by `append`, so they never create a second
node), recursively at every node. -/
def ST : BinaryTree K V → Prop
  | .nil => True
  | .node k _ l r =>
    (∀ x ∈ keys l, x < k) ∧ (∀ x ∈ keys r, k < x) ∧ ST l ∧ ST r

/-- The tree obtained from the empty tree by a sequence of `put` calls. -/
def putList (ps : List (K × V)) : BinaryTree K V :=
  ps.foldl (fun t p => put t p.1 p.2) .nil

/-- The value of the last `put` for a key in a sequence of `put` calls, if
any: the reference "last-write-wins" lookup. -/
def lastPut (ps : List (K × V)) (key : K) : Option V :=
  ps.foldl (fun acc p => if p.1 = key then some p.2 else acc) none

/-- Modelled from the spec: the five ordered steps of `removeDescendant`
(§4.1), written from the spec's words — (1) left child's key equals the
target, remove the left child; (2) left child exists and target key is less
than self's key, recurse into the left child; (3) right child's key equals
the target, remove the right child; (4) right child exists and target key is
less than self's key, recurse into the right child; (5) not found.  The
child-removal steps are the source's `remove_left` / `remove_right`. -/
def removeDescendentSteps : BinaryTree K V → K → BinaryTree K V × Option V
  | .nil, _ => (.nil, none)
  | .node k v l r, key =>
    if keyOf l = some key then
      remove_left (.node k v l r)
    else if l.isSome = true ∧ key < k then
      ((.node k v (removeDescendentSteps l key).1 r), (removeDescendentSteps l key).2)
    else if keyOf r = some key then
      remove_right (.node k v l r)
    else if r.isSome = true ∧ key < k then
      ((.node k v l (removeDescendentSteps r key).1), (removeDescendentSteps r key).2)
    else
      (.node k v l r, none)

/-! ## Basic lemmas about `find`, `put` and `get` -/

theorem get_eq_find (t : BinaryTree K V) (key : K) : get t key = find t key := by
  cases t <;> rfl

theorem find_eq_none_of_not_mem {t : BinaryTree K V} {key : K}
    (h : key ∉ keys t) : find t key = none := by
  induction t with
  | nil => rfl
  | node k v l r ihl ihr =>
    simp only [keys, List.mem_append, List.mem_cons, not_or] at h
    obtain ⟨h1, h2, h3⟩ := h
    simp only [find]
    rw [if_neg h2]
    split_ifs
    · exact ihl h1
    · exact ihr h3

theorem find_append_self (t : BinaryTree K V) (hnil : t ≠ .nil) (nk : K) (nv : V) :
    find (append t (.node nk nv .nil .nil)) nk = some nv := by
  induction t with
  | nil => exact absurd rfl hnil
  | node k v l r ihl ihr =>
    rw [append.eq_def]
    dsimp only
    by_cases h1 : nk < k
    · rw [if_pos h1]
      cases l with
      | nil =>
        simp only [find]
        rw [if_neg (ne_of_lt h1), if_pos h1]
        simp
      | node lk lv ll lr =>
        simp only [find]
        rw [if_neg (ne_of_lt h1), if_pos h1]
        exact ihl (by simp)
    · rw [if_neg h1]
      by_cases h2 : nk = k
      · rw [if_pos h2]
        simp only [find]
        rw [if_pos h2]
      · rw [if_neg h2]
        have h3 : k < nk := lt_of_le_of_ne (not_lt.mp h1) (Ne.symm h2)
        cases r with
        | nil =>
          simp only [find]
          rw [if_neg h2, if_neg (not_lt.mpr h3.le)]
          simp
        | node rk rv rl rr =>
          simp only [find]
          rw [if_neg h2, if_neg (not_lt.mpr h3.le)]
          exact ihr (by simp)

theorem find_congr_left (k : K) (v : V) (r : BinaryTree K V) (key : K)
    {X Y : BinaryTree K V} (h : find X key = find Y key) :
    find (.node k v X r) key = find (.node k v Y r) key := by
  simp only [find]
  rw [h]

theorem find_congr_right (k : K) (v : V) (l : BinaryTree K V) (key : K)
    {X Y : BinaryTree K V} (h : find X key = find Y key) :
    find (.node k v l X) key = find (.node k v l Y) key := by
  simp only [find]
  rw [h]

theorem find_append_other (t : BinaryTree K V) (nk : K) (nv : V) (key : K)
    (hne : key ≠ nk) :
    find (append t (.node nk nv .nil .nil)) key = find t key := by
  induction t with
  | nil => rfl
  | node k v l r ihl ihr =>
    rw [append.eq_def]
    dsimp only
    by_cases h1 : nk < k
    · rw [if_pos h1]
      cases l with
      | nil => exact find_congr_left k v r key (by simp [find, hne])
      | node lk lv ll lr => exact find_congr_left k v r key ihl
    · rw [if_neg h1]
      by_cases h2 : nk = k
      · rw [if_pos h2]
        subst h2
        simp only [find]
        rw [if_neg hne, if_neg hne]
      · rw [if_neg h2]
        cases r with
        | nil => exact find_congr_right k v l key (by simp [find, hne])
        | node rk rv rl rr => exact find_congr_right k v l key ihr

theorem get_put_self (t : BinaryTree K V) (k : K) (v : V) :
    get (put t k v) k = some v := by
  cases t with
  | nil => simp [put, get, find]
  | node k0 v0 l r =>
    rw [put, get_eq_find]
    exact find_append_self _ (by simp) k v

theorem get_put_other (t : BinaryTree K V) (k : K) (v : V) (key : K)
    (h : key ≠ k) : get (put t k v) key = get t key := by
  cases t with
  | nil => simp [put, get, find, h]
  | node k0 v0 l r =>
    rw [put, get_eq_find, get_eq_find]
    exact find_append_other _ _ _ _ h

theorem get_foldl_put (ps : List (K × V)) (t : BinaryTree K V) (key : K) :
    get (ps.foldl (fun t p => put t p.1 p.2) t) key
      = ps.foldl (fun acc p => if p.1 = key then some p.2 else acc) (get t key) := by
  induction ps generalizing t with
  | nil => rfl
  | cons p ps ih =>
    simp only [List.foldl_cons]
    rw [ih]
    congr 1
    by_cases h : p.1 = key
    · rw [if_pos h]
      subst h
      exact get_put_self t p.1 p.2
    · rw [if_neg h]
      exact get_put_other t p.1 p.2 key (fun hk => h hk.symm)

theorem get_putList (ps : List (K × V)) (key : K) :
    get (putList ps) key = lastPut ps key := by
  rw [putList, lastPut]
  exact get_foldl_put ps .nil key

/-! ## The search-tree invariant and the `put` operations -/

theorem mem_keys_append_leaf {t : BinaryTree K V} {nk : K} {nv : V} {x : K}
    (h : x ∈ keys (append t (.node nk nv .nil .nil))) : x ∈ keys t ∨ x = nk := by
  induction t with
  | nil => simp [append, keys] at h
  | node k v l r ihl ihr =>
    rw [append.eq_def] at h
    dsimp only at h
    by_cases h1 : nk < k
    · rw [if_pos h1] at h
      cases l with
      | nil =>
        simp only [keys, List.mem_append, List.mem_cons, List.not_mem_nil] at h ⊢
        tauto
      | node lk lv ll lr =>
        simp only [keys, List.mem_append, List.mem_cons] at h ⊢
        rcases h with h | h | h
        · rcases ihl (by simpa [keys] using h) with hm | hm
          · simp only [keys, List.mem_append, List.mem_cons] at hm
            tauto
          · tauto
        · tauto
        · tauto
    · rw [if_neg h1] at h
      by_cases h2 : nk = k
      · rw [if_pos h2] at h
        simp only [keys, List.mem_append, List.mem_cons] at h ⊢
        tauto
      · rw [if_neg h2] at h
        cases r with
        | nil =>
          simp only [keys, List.mem_append, List.mem_cons, List.not_mem_nil] at h ⊢
          tauto
        | node rk rv rl rr =>
          simp only [keys, List.mem_append, List.mem_cons] at h ⊢
          rcases h with h | h | h
          · tauto
          · tauto
          · rcases ihr (by simpa [keys] using h) with hm | hm
            · simp only [keys, List.mem_append, List.mem_cons] at hm
              tauto
            · tauto

theorem ST_append_leaf {t : BinaryTree K V} (hst : ST t) (nk : K) (nv : V)
    (hnil : t ≠ .nil) : ST (append t (.node nk nv .nil .nil)) := by
  induction t with
  | nil => exact absurd rfl hnil
  | node k v l r ihl ihr =>
    simp only [ST] at hst
    obtain ⟨hl, hr, stl, str⟩ := hst
    rw [append.eq_def]
    dsimp only
    by_cases h1 : nk < k
    · rw [if_pos h1]
      cases l with
      | nil =>
        simp only [ST, keys]
        refine ⟨?_, hr, ?_, str⟩
        · simp [h1]
        · simp
      | node lk lv ll lr =>
        simp only [ST]
        refine ⟨?_, hr, ihl stl (by simp), str⟩
        intro x hx
        rcases mem_keys_append_leaf hx with hm | hm
        · exact hl x hm
        · exact hm ▸ h1
    · rw [if_neg h1]
      by_cases h2 : nk = k
      · rw [if_pos h2]
        exact ⟨hl, hr, stl, str⟩
      · rw [if_neg h2]
        have h3 : k < nk := lt_of_le_of_ne (not_lt.mp h1) (Ne.symm h2)
        cases r with
        | nil =>
          simp only [ST, keys]
          refine ⟨hl, ?_, stl, ?_⟩
          · simp [h3]
          · simp
        | node rk rv rl rr =>
          simp only [ST]
          refine ⟨hl, ?_, stl, ihr str (by simp)⟩
          intro x hx
          rcases mem_keys_append_leaf hx with hm | hm
          · exact hr x hm
          · exact hm ▸ h3

theorem ST_put {t : BinaryTree K V} (hst : ST t) (k : K) (v : V) :
    ST (put t k v) := by
  cases t with
  | nil => simp [put, ST, keys]
  | node k0 v0 l r =>
    rw [put]
    exact ST_append_leaf hst k v (by simp)

theorem ST_putList (ps : List (K × V)) : ST (putList (V := V) ps) := by
  rw [putList]
  have aux : ∀ (qs : List (K × V)) (t : BinaryTree K V), ST t →
      ST (qs.foldl (fun t p => put t p.1 p.2) t) := by
    intro qs
    induction qs with
    | nil => intro t h; exact h
    | cons p qs ih =>
      intro t h
      simp only [List.foldl_cons]
      exact ih _ (ST_put h p.1 p.2)
  exact aux ps .nil trivial

/-! ## The minimum of a subtree -/

omit [LinearOrder K] in
theorem min_key_value_mem (k : K) (v : V) (l : BinaryTree K V) :
    (min_key_value k v l).1 ∈ k :: keys l := by
  induction l generalizing k v with
  | nil => simp [min_key_value]
  | node lk lv ll lr ihl ihr =>
    rw [min_key_value]
    have h := ihl lk lv
    simp only [keys, List.mem_append, List.mem_cons] at h ⊢
    tauto

theorem min_key_value_le (k : K) (v : V) (l : BinaryTree K V)
    (hst : ST l) (hlt : ∀ x ∈ keys l, x < k) :
    ∀ x ∈ k :: keys l, (min_key_value k v l).1 ≤ x := by
  induction l generalizing k v with
  | nil =>
    intro x hx
    simp only [keys, List.mem_cons, List.not_mem_nil, or_false] at hx
    simp [min_key_value, hx]
  | node lk lv ll lr ihl ihr =>
    simp only [ST] at hst
    obtain ⟨hll, hlr, stll, stlr⟩ := hst
    rw [min_key_value]
    have IH := ihl lk lv stll hll
    have hmlk : (min_key_value lk lv ll).1 ≤ lk := IH lk (by simp)
    intro x hx
    simp only [keys, List.mem_cons, List.mem_append] at hx
    rcases hx with rfl | hx | hx
    · have hlkx : lk < x := hlt lk (by simp [keys])
      exact hmlk.trans hlkx.le
    · exact IH x (by simp [hx])
    · rcases hx with rfl | hx
      · exact hmlk
      · exact hmlk.trans (hlr x hx).le

theorem find_min (k : K) (v : V) (l r : BinaryTree K V)
    (hst : ST l) (hlt : ∀ x ∈ keys l, x < k) :
    find (.node k v l r) (min_key_value k v l).1
      = some (min_key_value k v l).2 := by
  induction l generalizing k v r with
  | nil => simp [min_key_value, find]
  | node lk lv ll lr ihl ihr =>
    simp only [ST] at hst
    obtain ⟨hll, hlr, stll, stlr⟩ := hst
    rw [min_key_value]
    have hmem := min_key_value_mem lk lv ll
    have hmlt : (min_key_value lk lv ll).1 < k := by
      apply hlt
      simp only [keys, List.mem_append, List.mem_cons]
      simp only [List.mem_cons] at hmem
      tauto
    simp only [find]
    rw [if_neg (ne_of_lt hmlt), if_pos hmlt]
    exact ihl lk lv lr stll hll

theorem find_node (k : K) (v : V) (l r : BinaryTree K V) (x : K) :
    find (.node k v l r) x
      = if x = k then some v else if x < k then find l x else find r x := rfl

/-! ## Closed forms of the two-children splice under the invariant -/

theorem take_right_min_subtree_right_min (k : K) (v : V) (l : BinaryTree K V)
    (rk : K) (rv : V) (rr : BinaryTree K V)
    (hl : ∀ x ∈ keys l, x < k) (hk : k < rk) :
    take_right_min_subtree (.node k v l (.node rk rv .nil rr))
      = .node rk rv l rr := by
  simp only [take_right_min_subtree, min_key_value]
  have c1 : ¬ keyOf l = some rk := by
    cases l with
    | nil => simp [keyOf]
    | node lk lv ll lr =>
      have hlk : lk < k := hl lk (by simp [keys])
      simp only [keyOf, Option.some.injEq]
      exact ne_of_lt (hlk.trans hk)
  have c2 : ¬ (isSome l = true ∧ rk < rk) := by simp
  simp only [remove_descendent]
  rw [if_neg c1, if_neg c2, if_pos (by simp [keyOf] :
    keyOf (.node rk rv (.nil : BinaryTree K V) rr) = some rk)]
  simp only [remove_right]
  cases rr with
  | nil => simp [take_subtree]
  | node a b c d => simp [take_subtree]

theorem take_right_min_subtree_deep (k : K) (v : V) (l : BinaryTree K V)
    (rk : K) (rv : V) (rlk : K) (rlv : V) (rll rlr rr : BinaryTree K V)
    (hl : ∀ x ∈ keys l, x < k)
    (hr : ∀ x ∈ keys (.node rk rv (.node rlk rlv rll rlr) rr), k < x)
    (hrl : ∀ x ∈ keys (.node rlk rlv rll rlr), x < rk) :
    take_right_min_subtree
        (.node k v l (.node rk rv (.node rlk rlv rll rlr) rr))
      = .node (min_key_value rk rv (.node rlk rlv rll rlr)).1
          (min_key_value rk rv (.node rlk rlv rll rlr)).2
          l (.node rk rv (.node rlk rlv rll rlr) rr) := by
  have hmem0 := min_key_value_mem rlk rlv rll
  have hmrl : (min_key_value rk rv (.node rlk rlv rll rlr)).1
      ∈ keys (.node rlk rlv rll rlr) := by
    rw [min_key_value]
    simp only [keys, List.mem_append, List.mem_cons]
    simp only [List.mem_cons] at hmem0
    tauto
  have hmrk : (min_key_value rk rv (.node rlk rlv rll rlr)).1 < rk :=
    hrl _ hmrl
  have hkm : k < (min_key_value rk rv (.node rlk rlv rll rlr)).1 := by
    apply hr
    rw [show keys (.node rk rv (.node rlk rlv rll rlr) rr)
      = keys (.node rlk rlv rll rlr) ++ rk :: keys rr from rfl]
    exact List.mem_append_left _ hmrl
  simp only [take_right_min_subtree]
  have c1 : ¬ keyOf l = some (min_key_value rk rv (.node rlk rlv rll rlr)).1 := by
    cases l with
    | nil => simp [keyOf]
    | node lk lv ll lr =>
      have hlk : lk < k := hl lk (by simp [keys])
      simp only [keyOf, Option.some.injEq]
      exact ne_of_lt (hlk.trans hkm)
  have c3 : ¬ keyOf (.node rk rv (.node rlk rlv rll rlr) rr)
      = some (min_key_value rk rv (.node rlk rlv rll rlr)).1 := by
    simp only [keyOf, Option.some.injEq]
    exact ne_of_gt hmrk
  simp only [remove_descendent]
  rw [if_neg c1, if_neg (by simp :
      ¬ (isSome l = true ∧ (min_key_value rk rv (.node rlk rlv rll rlr)).1
        < (min_key_value rk rv (.node rlk rlv rll rlr)).1)),
    if_neg c3, if_neg (by simp :
      ¬ (isSome (.node rk rv (.node rlk rlv rll rlr) rr) = true
        ∧ (min_key_value rk rv (.node rlk rlv rll rlr)).1
          < (min_key_value rk rv (.node rlk rlv rll rlr)).1))]

/-! ## Removal preserves every other binding (under the invariant) -/

theorem take_subtree_find (k : K) (v : V) (l r : BinaryTree K V)
    (hst : ST (.node k v l r)) (x : K) (hx : x ≠ k) :
    find (take_subtree (.node k v l r)) x = find (.node k v l r) x := by
  simp only [ST] at hst
  obtain ⟨hl, hr, stl, str⟩ := hst
  cases l with
  | nil =>
    cases r with
    | nil =>
      simp only [take_subtree]
      rw [find_node k v .nil .nil x, if_neg hx]
      split_ifs <;> rfl
    | node rk rv rl rr =>
      simp only [take_subtree]
      rw [find_node k v .nil (.node rk rv rl rr) x, if_neg hx]
      by_cases hlt : x < k
      · rw [if_pos hlt]
        rw [show find (.nil : BinaryTree K V) x = none from rfl]
        apply find_eq_none_of_not_mem
        intro hmem
        exact lt_asymm hlt (hr x hmem)
      · rw [if_neg hlt]
  | node lk lv ll lr =>
    cases r with
    | nil =>
      simp only [take_subtree]
      rw [find_node k v (.node lk lv ll lr) .nil x, if_neg hx]
      by_cases hlt : x < k
      · rw [if_pos hlt]
      · rw [if_neg hlt]
        rw [show find (.nil : BinaryTree K V) x = none from rfl]
        apply find_eq_none_of_not_mem
        intro hmem
        exact hlt (hl x hmem)
    | node rk rv rl rr =>
      simp only [take_subtree]
      simp only [ST] at str
      obtain ⟨hrl, hrr, strl, strr⟩ := str
      have hkrk : k < rk := hr rk (by simp [keys])
      cases rl with
      | nil =>
        rw [take_right_min_subtree_right_min k v (.node lk lv ll lr) rk rv rr hl hkrk]
        rw [find_node rk rv (.node lk lv ll lr) rr x]
        rw [find_node k v (.node lk lv ll lr) (.node rk rv .nil rr) x, if_neg hx]
        by_cases h1 : x = rk
        · rw [if_pos h1]
          have hkx : k < x := h1 ▸ hkrk
          rw [if_neg (lt_asymm hkx), find_node rk rv .nil rr x, if_pos h1]
        · rw [if_neg h1]
          by_cases h2 : x < rk
          · rw [if_pos h2]
            by_cases h3 : x < k
            · rw [if_pos h3]
            · rw [if_neg h3, find_node rk rv .nil rr x, if_neg h1, if_pos h2]
              rw [show find (.nil : BinaryTree K V) x = none from rfl]
              apply find_eq_none_of_not_mem
              intro hmem
              exact h3 (hl x hmem)
          · rw [if_neg h2]
            have hkx : k < x :=
              hkrk.trans (lt_of_le_of_ne (not_lt.mp h2) (Ne.symm h1))
            rw [if_neg (lt_asymm hkx), find_node rk rv .nil rr x,
              if_neg h1, if_neg h2]
      | node rlk rlv rll rlr =>
        rw [take_right_min_subtree_deep k v (.node lk lv ll lr) rk rv rlk rlv
          rll rlr rr hl hr hrl]
        have hmem0 := min_key_value_mem rlk rlv rll
        have hmrl : (min_key_value rk rv (.node rlk rlv rll rlr)).1
            ∈ keys (.node rlk rlv rll rlr) := by
          rw [min_key_value]
          simp only [keys, List.mem_append, List.mem_cons]
          simp only [List.mem_cons] at hmem0
          tauto
        have hmrk : (min_key_value rk rv (.node rlk rlv rll rlr)).1 < rk :=
          hrl _ hmrl
        have hkm : k < (min_key_value rk rv (.node rlk rlv rll rlr)).1 := by
          apply hr
          rw [show keys (.node rk rv (.node rlk rlv rll rlr) rr)
            = keys (.node rlk rlv rll rlr) ++ rk :: keys rr from rfl]
          exact List.mem_append_left _ hmrl
        have hminle : ∀ y ∈ keys (.node rk rv (.node rlk rlv rll rlr) rr),
            (min_key_value rk rv (.node rlk rlv rll rlr)).1 ≤ y := by
          have hbase := min_key_value_le rk rv (.node rlk rlv rll rlr) strl hrl
          intro y hy
          rw [show keys (.node rk rv (.node rlk rlv rll rlr) rr)
            = keys (.node rlk rlv rll rlr) ++ rk :: keys rr from rfl] at hy
          rcases List.mem_append.mp hy with hy | hy
          · exact hbase y (List.mem_cons_of_mem _ hy)
          · rcases List.mem_cons.mp hy with rfl | hy
            · exact hbase y (List.mem_cons_self _ _)
            · exact (hbase rk (List.mem_cons_self _ _)).trans (hrr y hy).le
        have hfindm : find (.node rk rv (.node rlk rlv rll rlr) rr)
            (min_key_value rk rv (.node rlk rlv rll rlr)).1
              = some (min_key_value rk rv (.node rlk rlv rll rlr)).2 :=
          find_min rk rv (.node rlk rlv rll rlr) rr strl hrl
        rw [find_node (min_key_value rk rv (.node rlk rlv rll rlr)).1
          (min_key_value rk rv (.node rlk rlv rll rlr)).2
          (.node lk lv ll lr) (.node rk rv (.node rlk rlv rll rlr) rr) x]
        rw [find_node k v (.node lk lv ll lr)
          (.node rk rv (.node rlk rlv rll rlr) rr) x, if_neg hx]
        by_cases h1 : x = (min_key_value rk rv (.node rlk rlv rll rlr)).1
        · rw [if_pos h1]
          have hkx : k < x := h1 ▸ hkm
          rw [if_neg (lt_asymm hkx), h1, hfindm]
        · rw [if_neg h1]
          by_cases h2 : x < (min_key_value rk rv (.node rlk rlv rll rlr)).1
          · rw [if_pos h2]
            by_cases h3 : x < k
            · rw [if_pos h3]
            · rw [if_neg h3]
              rw [find_eq_none_of_not_mem (fun hmem => h3 (hl x hmem)),
                find_eq_none_of_not_mem
                  (fun hmem => absurd h2 (not_lt.mpr (hminle x hmem)))]
          · rw [if_neg h2]
            have hkx : k < x :=
              hkm.trans (lt_of_le_of_ne (not_lt.mp h2) (Ne.symm h1))
            rw [if_neg (lt_asymm hkx)]

theorem remove_descendent_find {t : BinaryTree K V} (hst : ST t) (key : K)
    (x : K) (hx : x ≠ key) :
    find (remove_descendent t key).1 x = find t x := by
  induction t with
  | nil => simp only [remove_descendent]
  | node k v l r ihl ihr =>
    simp only [ST] at hst
    obtain ⟨hl, hr, stl, str⟩ := hst
    simp only [remove_descendent]
    by_cases c1 : keyOf l = some key
    · rw [if_pos c1]
      cases l with
      | nil => simp [keyOf] at c1
      | node lk lv ll lr =>
        simp only [keyOf, Option.some.injEq] at c1
        subst c1
        simp only [remove_left]
        exact find_congr_left k v r x (take_subtree_find lk lv ll lr stl x hx)
    · rw [if_neg c1]
      by_cases c2 : isSome l = true ∧ key < k
      · rw [if_pos c2]
        dsimp only
        exact find_congr_left k v r x (ihl stl)
      · rw [if_neg c2]
        by_cases c3 : keyOf r = some key
        · rw [if_pos c3]
          cases r with
          | nil => simp [keyOf] at c3
          | node rk rv rl rr =>
            simp only [keyOf, Option.some.injEq] at c3
            subst c3
            simp only [remove_right]
            exact find_congr_right k v l x (take_subtree_find rk rv rl rr str x hx)
        · rw [if_neg c3]
          by_cases c4 : isSome r = true ∧ key < k
          · rw [if_pos c4]
            dsimp only
            exact find_congr_right k v l x (ihr str)
          · rw [if_neg c4]

theorem remove_find {t : BinaryTree K V} (hst : ST t) (key x : K)
    (hx : x ≠ key) :
    find (remove t key).1 x = find t x := by
  cases t with
  | nil => rfl
  | node k v l r =>
    simp only [remove]
    by_cases hk : k ≠ key
    · rw [if_pos hk]
      exact remove_descendent_find hst key x hx
    · rw [if_neg hk]
      push_neg at hk
      dsimp only
      subst hk
      exact take_subtree_find k v l r hst x hx

theorem remove_descendent_none {t : BinaryTree K V} {key : K}
    (h : (remove_descendent t key).2 = none) :
    (remove_descendent t key).1 = t := by
  induction t with
  | nil => simp only [remove_descendent]
  | node k v l r ihl ihr =>
    simp only [remove_descendent] at h ⊢
    by_cases c1 : keyOf l = some key
    · rw [if_pos c1] at h ⊢
      cases l with
      | nil => simp [keyOf] at c1
      | node lk lv ll lr =>
        simp only [remove_left] at h
        exact absurd h (by simp)
    · rw [if_neg c1] at h ⊢
      by_cases c2 : isSome l = true ∧ key < k
      · rw [if_pos c2] at h ⊢
        dsimp only at h ⊢
        rw [ihl h]
      · rw [if_neg c2] at h ⊢
        by_cases c3 : keyOf r = some key
        · rw [if_pos c3] at h ⊢
          cases r with
          | nil => simp [keyOf] at c3
          | node rk rv rl rr =>
            simp only [remove_right] at h
            exact absurd h (by simp)
        · rw [if_neg c3] at h ⊢
          by_cases c4 : isSome r = true ∧ key < k
          · rw [if_pos c4] at h ⊢
            dsimp only at h ⊢
            rw [ihr h]
          · rw [if_neg c4] at h ⊢

theorem remove_none {t : BinaryTree K V} {key : K}
    (h : (remove t key).2 = none) : (remove t key).1 = t := by
  cases t with
  | nil => rfl
  | node k v l r =>
    simp only [remove] at h ⊢
    by_cases hk : k ≠ key
    · rw [if_pos hk] at h ⊢
      exact remove_descendent_none h
    · rw [if_neg hk] at h ⊢
      dsimp only at h
      exact absurd h (by simp)

/-- C4: `remove_descendent`, called on a node, follows exactly the five
ordered steps of the spec: (1) left child's key equals the target, remove the
left child and return its value; (2) else left child exists and target key is
less than self's key, recurse into the left child; (3) else right child's key
equals the target, remove the right child and return its value; (4) else
right child exists and target key is less than self's key, recurse into the
right child; (5) else return none — in particular both steps 2 and 4 test
`key < self.key`. -/
theorem remove_descendent_follows_five_steps (t : BinaryTree K V) (key : K) :
    remove_descendent t key = removeDescendentSteps t key := by
  induction t with
  | nil => simp only [remove_descendent, removeDescendentSteps]
  | node k v l r ihl ihr =>
    simp only [remove_descendent, removeDescendentSteps]
    by_cases c1 : keyOf l = some key
    · rw [if_pos c1, if_pos c1]
    · rw [if_neg c1, if_neg c1]
      by_cases c2 : isSome l = true ∧ key < k
      · rw [if_pos c2, if_pos c2]
        rw [ihl]
      · rw [if_neg c2, if_neg c2]
        by_cases c3 : keyOf r = some key
        · rw [if_pos c3, if_pos c3]
        · rw [if_neg c3, if_neg c3]
          by_cases c4 : isSome r = true ∧ key < k
          · rw [if_pos c4, if_pos c4]
            rw [ihr]
          · rw [if_neg c4, if_neg c4]

/-! ## The claims -/

/-- C1: the claim "for every key that is present, `remove` returns its value
and a later `get` returns not-found" fails on the code.  After
`put(2,20); put(8,80); put(6,60)` the key 6 is present (`get` finds it), yet
`remove(6)` returns `none` and leaves the tree unchanged, because
`remove_descendent` tests `key < self.key` (instead of `key > self.key`)
before recursing into the right child, so a key two levels down a right edge
is never reached. -/
theorem remove_misses_present_deep_right_key :
    get (putList [((2 : Nat), (20 : Nat)), (8, 80), (6, 60)]) 6 = some 60
    ∧ remove (putList [((2 : Nat), (20 : Nat)), (8, 80), (6, 60)]) 6
      = (putList [((2 : Nat), (20 : Nat)), (8, 80), (6, 60)], none) := by
  constructor
  · decide
  · simp [putList, put, append, remove, remove_descendent, remove_left,
      remove_right, take_subtree, take_right_min_subtree, min_key_value,
      keyOf, isSome]

/-- C2: the claim that after the two-children splice the duplicated successor
key occurs exactly once fails on the code.  Deleting the node
`{5, left {2}, right {8, left {6}, right {9}}}`, the splice promotes the
in-order successor 6, but the recursive `remove_descendent(6)` on the new
node finds nothing (`6 < 6` is false in both descent steps while neither
direct child carries 6), so the replacement subtree carries the key 6 twice. -/
theorem take_subtree_keeps_duplicate_successor :
    take_subtree (.node (5 : Nat) (50 : Nat) (.node 2 20 .nil .nil)
        (.node 8 80 (.node 6 60 .nil .nil) (.node 9 90 .nil .nil)))
      = .node 6 60 (.node 2 20 .nil .nil)
          (.node 8 80 (.node 6 60 .nil .nil) (.node 9 90 .nil .nil))
    ∧ (keys (take_subtree (.node (5 : Nat) (50 : Nat) (.node 2 20 .nil .nil)
        (.node 8 80 (.node 6 60 .nil .nil) (.node 9 90 .nil .nil))))).count 6
      = 2 := by
  have h : take_subtree (.node (5 : Nat) (50 : Nat) (.node 2 20 .nil .nil)
        (.node 8 80 (.node 6 60 .nil .nil) (.node 9 90 .nil .nil)))
      = .node 6 60 (.node 2 20 .nil .nil)
          (.node 8 80 (.node 6 60 .nil .nil) (.node 9 90 .nil .nil)) := by
    simp [take_subtree, take_right_min_subtree, remove_descendent,
      remove_left, remove_right, min_key_value, keyOf, isSome]
  exact ⟨h, by rw [h]; decide⟩

/-- C3: the claim that every public operation preserves the invariant
(including "no two nodes carry the same key") fails on the code.  Building
the tree with `put` on keys 5, 2, 8, 6, 9 yields exactly one node with key 6,
but `remove(5)` produces a tree with two nodes carrying key 6: the promoted
successor copy at the root and the original successor node left in place
inside the right subtree (its removal silently fails, as in C2). -/
theorem remove_duplicates_successor_key :
    (keys (putList [((5 : Nat), (50 : Nat)), (2, 20), (8, 80), (6, 60),
      (9, 90)])).count 6 = 1
    ∧ (keys (remove (putList [((5 : Nat), (50 : Nat)), (2, 20), (8, 80),
      (6, 60), (9, 90)]) 5).1).count 6 = 2 := by
  constructor
  · decide
  · have h : (remove (putList [((5 : Nat), (50 : Nat)), (2, 20), (8, 80),
        (6, 60), (9, 90)]) 5).1
        = .node 6 60 (.node 2 20 .nil .nil)
            (.node 8 80 (.node 6 60 .nil .nil) (.node 9 90 .nil .nil)) := by
      simp [putList, put, append, remove, remove_descendent, remove_left,
        remove_right, take_subtree, take_right_min_subtree, min_key_value,
        keyOf, isSome]
    rw [h]
    decide

/-- C5: for every finite sequence of `put(k,v)` operations starting from the
empty tree and every key that appears in the sequence, `get` afterwards
returns the value of the last `put` for that key (last-write-wins). -/
theorem get_after_puts_is_last_write (ps : List (K × V)) (key : K) (v : V)
    (h : lastPut ps key = some v) : get (putList ps) key = some v := by
  rw [get_putList]
  exact h

theorem get_after_puts_is_last_write_witness :
    lastPut [((1 : Nat), (10 : Nat)), (2, 20), (1, 11)] 1 = some 11
    ∧ get (putList [((1 : Nat), (10 : Nat)), (2, 20), (1, 11)]) 1 = some 11 :=
  ⟨by decide, get_after_puts_is_last_write _ 1 11 (by decide)⟩

/-- C6: on any tree built by a sequence of `put` operations, after
`remove(key)` every other key `x ≠ key` is still retrievable by `get` with
the value it had before the removal. -/
theorem remove_preserves_other_bindings (ps : List (K × V)) (key x : K)
    (hx : x ≠ key) :
    get (remove (putList ps) key).1 x = get (putList ps) x := by
  rw [get_eq_find, get_eq_find]
  exact remove_find (ST_putList ps) key x hx

theorem remove_preserves_other_bindings_witness :
    (4 : Nat) ≠ 7
    ∧ get (remove (putList [((2 : Nat), (20 : Nat)), (1, 10), (7, 70),
        (4, 40), (9, 90)]) 7).1 4
      = get (putList [((2 : Nat), (20 : Nat)), (1, 10), (7, 70), (4, 40),
        (9, 90)]) 4 :=
  ⟨by decide, remove_preserves_other_bindings _ 7 4 (by decide)⟩

/-- C7: inserting keys 2, 1, 7, 4, 9 with values goodbye, hello, cherry,
doot, uber (in that order) and then removing key 7 returns "cherry", a
subsequent `get 7` is not found, and keys 1, 2, 4, 9 still map to hello,
goodbye, doot, uber. -/
theorem two_child_deletion_example :
    (remove (putList [((2 : Nat), "goodbye"), (1, "hello"), (7, "cherry"),
        (4, "doot"), (9, "uber")]) 7).2 = some "cherry"
    ∧ get (remove (putList [((2 : Nat), "goodbye"), (1, "hello"),
        (7, "cherry"), (4, "doot"), (9, "uber")]) 7).1 7 = none
    ∧ get (remove (putList [((2 : Nat), "goodbye"), (1, "hello"),
        (7, "cherry"), (4, "doot"), (9, "uber")]) 7).1 1 = some "hello"
    ∧ get (remove (putList [((2 : Nat), "goodbye"), (1, "hello"),
        (7, "cherry"), (4, "doot"), (9, "uber")]) 7).1 2 = some "goodbye"
    ∧ get (remove (putList [((2 : Nat), "goodbye"), (1, "hello"),
        (7, "cherry"), (4, "doot"), (9, "uber")]) 7).1 4 = some "doot"
    ∧ get (remove (putList [((2 : Nat), "goodbye"), (1, "hello"),
        (7, "cherry"), (4, "doot"), (9, "uber")]) 7).1 9 = some "uber" := by
  have h : remove (putList [((2 : Nat), "goodbye"), (1, "hello"),
      (7, "cherry"), (4, "doot"), (9, "uber")]) 7
      = (.node 2 "goodbye" (.node 1 "hello" .nil .nil)
          (.node 9 "uber" (.node 4 "doot" .nil .nil) .nil), some "cherry") := by
    simp [putList, put, append, remove, remove_descendent, remove_left,
      remove_right, take_subtree, take_right_min_subtree, min_key_value,
      keyOf, isSome]
  refine ⟨by rw [h], by rw [h]; rfl, by rw [h]; rfl, by rw [h]; rfl,
    by rw [h]; rfl, by rw [h]; rfl⟩

/-- C8: on the empty tree, `get` and `remove` return not-found for every key;
and for every tree, `clear` makes `is_empty` return true. -/
theorem empty_tree_and_clear_semantics :
    (∀ key : K, get (.nil : BinaryTree K V) key = none
      ∧ remove (.nil : BinaryTree K V) key = (.nil, none))
    ∧ ∀ t : BinaryTree K V, is_empty (clear t) = true :=
  ⟨fun _ => ⟨rfl, rfl⟩, fun _ => rfl⟩

/-- C9: whenever `remove` returns not-found, the tree is left completely
unchanged — removal on the not-found path never modifies any node. -/
theorem remove_not_found_leaves_tree_unchanged (t : BinaryTree K V) (key : K)
    (h : (remove t key).2 = none) : (remove t key).1 = t :=
  remove_none h

theorem remove_not_found_leaves_tree_unchanged_witness :
    (remove (putList [((2 : Nat), (20 : Nat))]) 5).2 = none
    ∧ (remove (putList [((2 : Nat), (20 : Nat))]) 5).1
      = putList [((2 : Nat), (20 : Nat))] :=
  ⟨by simp [putList, put, remove, remove_descendent, keyOf, isSome],
    remove_not_found_leaves_tree_unchanged _ 5
      (by simp [putList, put, remove, remove_descendent, keyOf, isSome])⟩

/-- C10: for every tree state, `put(k, v)` does not change the result of
`get(x)` for any other key `x ≠ k`. -/
theorem put_preserves_other_keys (t : BinaryTree K V) (k : K) (v : V) (x : K)
    (hx : x ≠ k) : get (put t k v) x = get t x :=
  get_put_other t k v x hx

theorem put_preserves_other_keys_witness :
    (2 : Nat) ≠ 1
    ∧ get (put (putList [((2 : Nat), (20 : Nat))]) 1 10) 2
      = get (putList [((2 : Nat), (20 : Nat))]) 2 :=
  ⟨by decide, put_preserves_other_keys (putList [((2 : Nat), (20 : Nat))])
    1 10 2 (by decide)⟩

end BinaryTree
